import Mathlib

/-!
Verification of the text-pipeline core of the xsukax EN-AR offline translator
(`translator_api.py`): the normalizer `clean_and_prepare_text`, the segmenter
`split_text_smart`, and the orchestrator `translate_with_structure_preservation`.

Strings are modelled as `List Char`.  Python's whitespace set (for `str.strip`,
`str.split()` and the regex class `\s`) is modelled by `pyIsSpace`.  The
translation engine (`translate_chunk_robust` in the source) is treated as an
abstract function `Engine := Str → Except Str Str`, exactly as the spec treats
it (a black box returning a translated string or a failure reason).  The
orchestrator is instrumented to also return the ordered list of chunk strings
it dispatched to the engine, so that claims about the number and order of
engine calls can be stated.
-/

namespace Xlat

abbrev Str := List Char

/-- Model of Python's whitespace test (`str.isspace` for a single character):
the ASCII whitespace characters plus the common Unicode space characters. -/
def pyIsSpace (c : Char) : Bool :=
  c = ' ' || c = '\t' || c = '\n' || c = '\r' || c.val = 11 || c.val = 12 ||
  c.val = 0x85 || c.val = 0xa0 || c.val = 0x1680 ||
  (0x2000 ≤ c.val && c.val ≤ 0x200a) || c.val = 0x2028 || c.val = 0x2029 ||
  c.val = 0x202f || c.val = 0x205f || c.val = 0x3000

/-- Python `s.strip()`: drop leading and trailing whitespace. -/
def strip (s : Str) : Str :=
  ((s.dropWhile pyIsSpace).reverse.dropWhile pyIsSpace).reverse

/-- Helper for single-character splitting: prepend a character to the first
piece of a split result. -/
def consHead (c : Char) : List Str → List Str
  | [] => [[c]]
  | t :: ts => (c :: t) :: ts

/-- Python `s.split(sep)` for a one-character separator `sep`: keeps empty
pieces, result has one piece more than the number of separator occurrences. -/
def splitChar (sep : Char) : Str → List Str
  | [] => [[]]
  | c :: rest => if c = sep then [] :: splitChar sep rest else consHead c (splitChar sep rest)

/-- Python `s.split('\n\n')`: split on each non-overlapping occurrence of two
consecutive newlines, scanning left to right. -/
def splitOn2NL : Str → List Str
  | [] => [[]]
  | '\n' :: '\n' :: rest => [] :: splitOn2NL rest
  | c :: rest => consHead c (splitOn2NL rest)

/-- Python `sep.join(pieces)`. -/
def joinWith (sep : Str) : List Str → Str
  | [] => []
  | [x] => x
  | x :: xs => x ++ sep ++ joinWith sep xs

/-- Accumulator worker for `pyWords`; `acc` holds the characters of the word
currently being read, in reverse order. -/
def wordsAux : Str → Str → List Str
  | [], acc => if acc = [] then [] else [acc.reverse]
  | c :: rest, acc =>
    if pyIsSpace c then
      if acc = [] then wordsAux rest [] else acc.reverse :: wordsAux rest []
    else wordsAux rest (c :: acc)

/-- Python `s.split()` with no argument: the whitespace-separated words of
`s`, with no empty pieces. -/
def pyWords (s : Str) : List Str := wordsAux s []

/-- One line of `clean_and_prepare_text` (source lines 72-79): a line with any
non-whitespace content is rewritten as its words joined by single spaces;
a blank line becomes the empty line. -/
def cleanLine (line : Str) : Str :=
  if strip line ≠ [] then joinWith [' '] (pyWords line) else []

/-- `clean_and_prepare_text` (source lines 66-81): split into lines, clean
each line preserving blank lines, rejoin with single newlines. -/
def clean_and_prepare_text (text : Str) : Str :=
  joinWith ['\n'] ((splitChar '\n' text).map cleanLine)

/-- The sentence-terminator class of the source regex `[.!?؟।]` (source line
102): Latin `.` `!` `?`, Arabic question mark U+061F, Devanagari danda U+0964. -/
def isTerm (c : Char) : Bool :=
  c = '.' || c = '!' || c = '?' || c = '؟' || c = '।'

/-- Worker simulating `re.split(r'[.!?؟।]+\s+', s)` by a single left-to-right
scan.  `piece` is the current piece read so far, `ts` a run of terminator
characters not yet known to be followed by whitespace, and `sawSp` records
that a terminator run followed by at least one whitespace character has been
seen, i.e. a separator match is being extended over its trailing `\s+` run.
A terminator run not followed by whitespace is ordinary text, matching the
regex, which finds a separator exactly at each maximal terminator run that is
immediately followed by whitespace and consumes that run plus the maximal
whitespace run after it. -/
def reSplitAux : Str → Str → Str → Bool → List Str
  | [], piece, ts, sawSp =>
    if sawSp then [piece, []] else [piece ++ ts]
  | x :: rest, piece, ts, sawSp =>
    if sawSp then
      if pyIsSpace x then reSplitAux rest piece ts true
      else if isTerm x then piece :: reSplitAux rest [] [x] false
      else piece :: reSplitAux rest [x] [] false
    else
      if isTerm x then reSplitAux rest piece (ts ++ [x]) false
      else if pyIsSpace x then
        if ts = [] then reSplitAux rest (piece ++ [x]) [] false
        else reSplitAux rest piece ts true
      else reSplitAux rest (piece ++ ts ++ [x]) [] false

/-- The candidate sentences of a paragraph:
`re.split(r'[.!?؟।]+\s+', paragraph)` (source lines 102-103). -/
def reSplitSent (s : Str) : List Str := reSplitAux s [] [] false

/-- `re.search(r'[a-zA-Z]', s)` (source line 114): the string contains at
least one Latin letter. -/
def hasLatin (s : Str) : Bool :=
  s.any (fun c => ('a' ≤ c && c ≤ 'z') || ('A' ≤ c && c ≤ 'Z'))

/-- The sentence value actually packed by the segmenter for the candidate at
position `i` out of `n` (source lines 108-117): the stripped sentence, with
`". "` re-appended when it is not the last candidate and contains a Latin
letter, `"، "` (Arabic comma U+060C plus space) re-appended when it is not the
last candidate and contains no Latin letter. -/
def decorateSentence (n i : Nat) (s : Str) : Str :=
  if i < n - 1 then
    if hasLatin (strip s) then strip s ++ ['.', ' '] else strip s ++ ['،', ' ']
  else strip s

/-- The greedy sentence-packing loop of `split_text_smart` (source lines
105-127).  `n` is the total number of candidate sentences, `i` the index of
the head of the remaining sentence list, `cur` the running buffer
`current_chunk`, and `chunks` the chunks flushed so far.  Empty (post-strip)
sentences are skipped; a sentence is flushed into a new buffer when appending
it would push the buffer over `maxLen` and the buffer is non-empty; the final
non-blank buffer is flushed at the end. -/
def packSentences (maxLen n : Nat) : Nat → List Str → Str → List Str → List Str
  | _, [], cur, chunks => if strip cur ≠ [] then chunks ++ [strip cur] else chunks
  | i, s :: rest, cur, chunks =>
    if strip s = [] then packSentences maxLen n (i+1) rest cur chunks
    else
      let s2 := decorateSentence n i s
      if maxLen < (cur ++ s2).length ∧ cur ≠ [] then
        packSentences maxLen n (i+1) rest s2 (chunks ++ [strip cur])
      else
        packSentences maxLen n (i+1) rest (cur ++ s2) chunks

/-- The chunks produced from one stripped, non-empty paragraph (source lines
95-127): a paragraph within the budget is a single chunk; a longer paragraph
is split into candidate sentences and greedily packed. -/
def paragraphChunks (maxLen : Nat) (p : Str) : List Str :=
  if p.length ≤ maxLen then [p]
  else packSentences maxLen (reSplitSent p).length 0 (reSplitSent p) [] []

/-- `split_text_smart` (source lines 83-129): split the text on double
newlines, strip each paragraph, skip blank paragraphs, and emit the chunks of
each remaining paragraph in order. -/
def split_text_smart (text : Str) (maxLen : Nat) : List Str :=
  (((splitOn2NL text).map strip).filter (fun p => decide (p ≠ []))).flatMap
    (paragraphChunks maxLen)

/-- The abstract translation engine (`translate_chunk_robust` in the source,
treated as the external collaborator of the spec): a chunk is mapped to a
translated string or a failure reason. -/
abbrev Engine := Str → Except Str Str

/-- Decimal digits of a natural number, as a character list. -/
def natStr (n : Nat) : Str := (Nat.repr n).data

/-- The error text `f"Failed to translate paragraph {i}: {e}"`
(source line 234). -/
def failParaMsg (i : Nat) (e : Str) : Str :=
  "Failed to translate paragraph ".data ++ natStr i ++ ": ".data ++ e

/-- The error text `f"Failed to translate chunk {j} of paragraph {i}: {e}"`
(source line 245). -/
def failChunkMsg (j i : Nat) (e : Str) : Str :=
  "Failed to translate chunk ".data ++ natStr j ++ " of paragraph ".data ++
    natStr i ++ ": ".data ++ e

/-- The per-chunk dispatch loop for one long paragraph (source lines
239-247).  `pi` is the 1-based paragraph number used in error messages, `j`
the 0-based index of the head chunk, `acc` the accumulated non-empty chunk
translations, `calls` the chunks dispatched to the engine so far (across the
whole document).  The first failing chunk aborts with the chunk/paragraph
error message; an empty translation is skipped (`if translation:`). -/
def translateChunksLoop (engine : Engine) (pi : Nat) :
    Nat → List Str → List Str → List Str → Except Str (List Str) × List Str
  | _, [], acc, calls => (.ok acc, calls)
  | j, ch :: rest, acc, calls =>
    match engine ch with
    | .error e => (.error (failChunkMsg (j+1) pi e), calls ++ [ch])
    | .ok t =>
      translateChunksLoop engine pi (j+1) rest
        (if t ≠ [] then acc ++ [t] else acc) (calls ++ [ch])

/-- The per-paragraph loop of the structured path plus final reassembly
(source lines 221-257).  `i` is the 0-based index of the head paragraph,
`acc` the accumulated paragraph translations (with `[]` placeholders for
blank paragraphs), `calls` the chunks dispatched so far.  A blank paragraph
contributes an empty placeholder; a paragraph within the budget is dispatched
whole; a longer paragraph is segmented and its chunk translations joined with
single spaces.  At the end the non-blank paragraph translations are joined
with double newlines and the result is stripped (source lines 254-257). -/
def translateParagraphsLoop (engine : Engine) :
    Nat → List Str → List Str → List Str → Except Str Str × List Str
  | _, [], acc, calls =>
    (.ok (strip (joinWith ['\n', '\n'] (acc.filter (fun para => decide (strip para ≠ []))))),
     calls)
  | i, para :: rest, acc, calls =>
    let p := strip para
    if p = [] then translateParagraphsLoop engine (i+1) rest (acc ++ [[]]) calls
    else if p.length ≤ 300 then
      match engine p with
      | .error e => (.error (failParaMsg (i+1) e), calls ++ [p])
      | .ok t => translateParagraphsLoop engine (i+1) rest (acc ++ [t]) (calls ++ [p])
    else
      match translateChunksLoop engine (i+1) 0 (split_text_smart p 300) [] calls with
      | (.error m, calls') => (.error m, calls')
      | (.ok ts, calls') =>
        translateParagraphsLoop engine (i+1) rest (acc ++ [joinWith [' '] ts]) calls'

/-- `translate_with_structure_preservation` (source lines 197-260),
instrumented with the ordered list of chunks dispatched to the engine.
Normalize; short-circuit on blank input; dispatch the whole text as one chunk
when it is within the 300-character budget; otherwise run the per-paragraph
structured path. -/
def translate_with_structure_preservation (engine : Engine) (text : Str) :
    Except Str Str × List Str :=
  let cleaned := clean_and_prepare_text text
  if strip cleaned = [] then (.ok [], [])
  else if cleaned.length ≤ 300 then (engine cleaned, [cleaned])
  else translateParagraphsLoop engine 0 (splitOn2NL cleaned) [] []

deriving instance DecidableEq for Except

/-- An engine succeeding on every chunk, returning the chunk unchanged. -/
def engId : Engine := fun s => .ok s

/-- An engine succeeding on every chunk, returning the chunk prefixed with a
marker character. -/
def engEcho : Engine := fun s => .ok ('T' :: s)

set_option maxRecDepth 1000000

/-- C3: for every input string that is empty or whitespace-only after
normalization, `translate_with_structure_preservation` returns the pair
(empty string, no error) and never invokes the translation engine (the
dispatched-chunk list is empty). -/
theorem claim_C3 (engine : Engine) (text : Str)
    (h : strip (clean_and_prepare_text text) = []) :
    translate_with_structure_preservation engine text = (.ok [], []) := by
  unfold translate_with_structure_preservation
  simp [h]

/-- Witness for C3 at the whitespace-only input `"   \n\n  "`. -/
theorem claim_C3_witness :
    strip (clean_and_prepare_text "   \n\n  ".data) = [] ∧
    translate_with_structure_preservation engEcho "   \n\n  ".data = (.ok [], []) :=
  ⟨by decide, claim_C3 engEcho "   \n\n  ".data (by decide)⟩

/-- C6: for every input whose normalized text is non-empty and of length at
most the budget (300), `translate_with_structure_preservation` dispatches the
entire normalized text as one chunk in a single engine call and returns that
call's result or failure verbatim. -/
theorem claim_C6 (engine : Engine) (text : Str)
    (h1 : strip (clean_and_prepare_text text) ≠ [])
    (h2 : (clean_and_prepare_text text).length ≤ 300) :
    translate_with_structure_preservation engine text =
      (engine (clean_and_prepare_text text), [clean_and_prepare_text text]) := by
  unfold translate_with_structure_preservation
  simp [h1, h2]

/-- Witness for C6 at the input `"Hello world."` (12 characters, below the
budget), with an engine whose output is visibly the single call's result. -/
theorem claim_C6_witness :
    strip (clean_and_prepare_text "Hello world.".data) ≠ [] ∧
    (clean_and_prepare_text "Hello world.".data).length ≤ 300 ∧
    translate_with_structure_preservation engEcho "Hello world.".data =
      (engEcho (clean_and_prepare_text "Hello world.".data),
       [clean_and_prepare_text "Hello world.".data]) :=
  ⟨by decide, by decide, claim_C6 engEcho "Hello world.".data (by decide) (by decide)⟩

theorem consHead_ne_nil (c : Char) (l : List Str) : consHead c l ≠ [] := by
  cases l <;> simp [consHead]

theorem splitChar_ne_nil (sep : Char) (s : Str) : splitChar sep s ≠ [] := by
  induction s with
  | nil => simp [splitChar]
  | cons c rest ih =>
    unfold splitChar
    split
    · simp
    · exact consHead_ne_nil c _

theorem splitChar_of_not_mem (sep : Char) (l : Str) (h : sep ∉ l) :
    splitChar sep l = [l] := by
  induction l with
  | nil => rfl
  | cons c rest ih =>
    have hc : c ≠ sep := fun hcs => h (hcs ▸ List.mem_cons_self c rest)
    have hrest : sep ∉ rest := fun hm => h (List.mem_cons_of_mem c hm)
    simp [splitChar, hc, ih hrest, consHead]

theorem splitChar_append (sep : Char) (l t : Str) (h : sep ∉ l) :
    splitChar sep (l ++ sep :: t) = l :: splitChar sep t := by
  induction l with
  | nil => simp [splitChar]
  | cons c rest ih =>
    have hc : c ≠ sep := fun hcs => h (hcs ▸ List.mem_cons_self c rest)
    have hrest : sep ∉ rest := fun hm => h (List.mem_cons_of_mem c hm)
    simp [splitChar, hc, ih hrest, consHead]

theorem splitChar_joinWith (sep : Char) (L : List Str) (hne : L ≠ [])
    (h : ∀ l ∈ L, sep ∉ l) : splitChar sep (joinWith [sep] L) = L := by
  induction L with
  | nil => exact absurd rfl hne
  | cons x xs ih =>
    cases xs with
    | nil => exact splitChar_of_not_mem sep x (h x (List.mem_cons_self x []))
    | cons y ys =>
      have hx : sep ∉ x := h x (List.mem_cons_self x _)
      have hxs : ∀ l ∈ y :: ys, sep ∉ l := fun l hl => h l (List.mem_cons_of_mem x hl)
      have : joinWith [sep] (x :: y :: ys) = x ++ sep :: joinWith [sep] (y :: ys) := by
        show x ++ [sep] ++ joinWith [sep] (y :: ys) = _
        simp
      rw [this, splitChar_append sep x _ hx, ih (by simp) hxs]

theorem mem_dropWhile_of_mem {p : Char → Bool} {l : Str} {c : Char}
    (hc : c ∈ l) (hnp : p c = false) : c ∈ l.dropWhile p := by
  induction l with
  | nil => cases hc
  | cons a rest ih =>
    by_cases ha : p a
    · have hca : c ≠ a := fun h => by rw [h] at hnp; rw [hnp] at ha; cases ha
      have : c ∈ rest := by
        rcases List.mem_cons.mp hc with h | h
        · exact absurd h hca
        · exact h
      simpa [List.dropWhile, ha] using ih this
    · simpa [List.dropWhile, ha] using hc

theorem mem_strip_of_mem {l : Str} {c : Char} (hc : c ∈ l)
    (hnp : pyIsSpace c = false) : c ∈ strip l := by
  unfold strip
  have h1 : c ∈ l.dropWhile pyIsSpace := mem_dropWhile_of_mem hc hnp
  have h2 : c ∈ (l.dropWhile pyIsSpace).reverse := List.mem_reverse.mpr h1
  have h3 : c ∈ (l.dropWhile pyIsSpace).reverse.dropWhile pyIsSpace :=
    mem_dropWhile_of_mem h2 hnp
  exact List.mem_reverse.mpr h3

theorem strip_ne_nil_of_mem {l : Str} {c : Char} (hc : c ∈ l)
    (hnp : pyIsSpace c = false) : strip l ≠ [] :=
  List.ne_nil_of_mem (mem_strip_of_mem hc hnp)

theorem strip_eq_nil_of_all {l : Str} (h : ∀ c ∈ l, pyIsSpace c = true) :
    strip l = [] := by
  unfold strip
  have h1 : l.dropWhile pyIsSpace = [] := by
    rw [List.dropWhile_eq_nil_iff]
    exact fun a ha => h a ha
  rw [h1]
  rfl

theorem exists_nonspace_of_strip_ne_nil {l : Str} (h : strip l ≠ []) :
    ∃ c ∈ l, pyIsSpace c = false := by
  by_contra hall
  push_neg at hall
  exact h (strip_eq_nil_of_all (fun c hc => by
    have := hall c hc
    simpa using this))

theorem dropWhile_length_le (p : Char → Bool) (l : Str) :
    (l.dropWhile p).length ≤ l.length := by
  induction l with
  | nil => simp [List.dropWhile]
  | cons a rest ih =>
    rw [List.dropWhile_cons]
    by_cases h : p a
    · simp only [h, if_true]
      exact Nat.le_succ_of_le ih
    · simp [h]

theorem strip_length_le (l : Str) : (strip l).length ≤ l.length := by
  unfold strip
  calc ((l.dropWhile pyIsSpace).reverse.dropWhile pyIsSpace).reverse.length
      = ((l.dropWhile pyIsSpace).reverse.dropWhile pyIsSpace).length := by
        rw [List.length_reverse]
    _ ≤ (l.dropWhile pyIsSpace).reverse.length := dropWhile_length_le _ _
    _ = (l.dropWhile pyIsSpace).length := by rw [List.length_reverse]
    _ ≤ l.length := dropWhile_length_le _ _

theorem mem_joinWith {sep : Str} {ws : List Str} {c : Char}
    (h : c ∈ joinWith sep ws) : c ∈ sep ∨ ∃ w ∈ ws, c ∈ w := by
  induction ws with
  | nil => cases h
  | cons x xs ih =>
    cases xs with
    | nil =>
      right
      exact ⟨x, List.mem_cons_self x [], h⟩
    | cons y ys =>
      have : c ∈ x ++ sep ++ joinWith sep (y :: ys) := h
      rcases List.mem_append.mp this with h1 | h2
      · rcases List.mem_append.mp h1 with hx | hsep
        · exact Or.inr ⟨x, List.mem_cons_self x _, hx⟩
        · exact Or.inl hsep
      · rcases ih h2 with hsep | ⟨w, hw, hcw⟩
        · exact Or.inl hsep
        · exact Or.inr ⟨w, List.mem_cons_of_mem x hw, hcw⟩

theorem mem_joinWith_of_mem {sep : Str} {ws : List Str} {w : Str} {c : Char}
    (hw : w ∈ ws) (hc : c ∈ w) : c ∈ joinWith sep ws := by
  induction ws with
  | nil => cases hw
  | cons x xs ih =>
    cases xs with
    | nil =>
      rcases List.mem_cons.mp hw with h | h
      · exact h ▸ hc
      · cases h
    | cons y ys =>
      show c ∈ x ++ sep ++ joinWith sep (y :: ys)
      rcases List.mem_cons.mp hw with h | h
      · exact List.mem_append.mpr (Or.inl (List.mem_append.mpr (Or.inl (h ▸ hc))))
      · exact List.mem_append.mpr (Or.inr (ih h))

theorem wordsAux_good (s : Str) : ∀ acc, (∀ c ∈ acc, pyIsSpace c = false) →
    ∀ w ∈ wordsAux s acc, w ≠ [] ∧ ∀ c ∈ w, pyIsSpace c = false := by
  induction s with
  | nil =>
    intro acc hacc w hw
    unfold wordsAux at hw
    split at hw
    · cases hw
    · next hne =>
      rcases List.mem_cons.mp hw with h | h
      · subst h
        refine ⟨by simpa using hne, fun c hc => hacc c (List.mem_reverse.mp hc)⟩
      · cases h
  | cons c rest ih =>
    intro acc hacc w hw
    unfold wordsAux at hw
    by_cases hsp : pyIsSpace c
    · rw [if_pos hsp] at hw
      split at hw
      · exact ih [] (by simp) w hw
      · rcases List.mem_cons.mp hw with h | h
        · subst h
          next hne =>
            exact ⟨by simpa using hne, fun d hd => hacc d (List.mem_reverse.mp hd)⟩
        · exact ih [] (by simp) w h
    · rw [if_neg hsp] at hw
      refine ih (c :: acc) ?_ w hw
      intro d hd
      rcases List.mem_cons.mp hd with h | h
      · subst h
        simpa using hsp
      · exact hacc d h

theorem pyWords_good (s : Str) :
    ∀ w ∈ pyWords s, w ≠ [] ∧ ∀ c ∈ w, pyIsSpace c = false :=
  wordsAux_good s [] (by simp)

theorem wordsAux_ne_nil (s : Str) :
    ∀ acc, (∃ c ∈ s, pyIsSpace c = false) ∨ acc ≠ [] → wordsAux s acc ≠ [] := by
  induction s with
  | nil =>
    intro acc h
    rcases h with ⟨c, hc, _⟩ | hacc
    · cases hc
    · simp [wordsAux, hacc]
  | cons c rest ih =>
    intro acc h
    unfold wordsAux
    by_cases hsp : pyIsSpace c
    · rw [if_pos hsp]
      by_cases hacc : acc = []
      · rw [if_pos hacc]
        refine ih [] (Or.inl ?_)
        rcases h with ⟨d, hd, hdf⟩ | hne
        · rcases List.mem_cons.mp hd with he | he
          · subst he
            rw [hsp] at hdf
            cases hdf
          · exact ⟨d, he, hdf⟩
        · exact absurd hacc hne
      · rw [if_neg hacc]
        simp
    · rw [if_neg hsp]
      exact ih (c :: acc) (Or.inr (by simp))

theorem wordsAux_nil (acc : Str) :
    wordsAux [] acc = if acc = [] then [] else [acc.reverse] := rfl

theorem wordsAux_cons (c : Char) (rest acc : Str) :
    wordsAux (c :: rest) acc =
      if pyIsSpace c then
        if acc = [] then wordsAux rest [] else acc.reverse :: wordsAux rest []
      else wordsAux rest (c :: acc) := rfl

theorem wordsAux_nonspace_chunk {w : Str} (hw : ∀ c ∈ w, pyIsSpace c = false) :
    ∀ l acc, wordsAux (w ++ l) acc = wordsAux l (w.reverse ++ acc) := by
  induction w with
  | nil => intro l acc; simp
  | cons a w' ih =>
    intro l acc
    have ha : pyIsSpace a = false := hw a (List.mem_cons_self a w')
    have hw' : ∀ c ∈ w', pyIsSpace c = false := fun c hc => hw c (List.mem_cons_of_mem a hc)
    rw [List.cons_append, wordsAux_cons, ha]
    simp only [Bool.false_eq_true, if_false]
    rw [ih hw' l (a :: acc)]
    congr 1
    simp

theorem pyWords_joinWith (ws : List Str) (hne : ws ≠ [])
    (hgood : ∀ w ∈ ws, w ≠ [] ∧ ∀ c ∈ w, pyIsSpace c = false) :
    pyWords (joinWith [' '] ws) = ws := by
  induction ws with
  | nil => exact absurd rfl hne
  | cons w ws' ih =>
    obtain ⟨hwne, hwns⟩ := hgood w (List.mem_cons_self w ws')
    cases ws' with
    | nil =>
      show pyWords w = [w]
      unfold pyWords
      have : wordsAux (w ++ []) [] = wordsAux [] (w.reverse ++ []) :=
        wordsAux_nonspace_chunk hwns [] []
      rw [List.append_nil] at this
      rw [this]
      unfold wordsAux
      rw [List.append_nil, if_neg (by simpa using hwne)]
      simp
    | cons y ys =>
      have hj : joinWith [' '] (w :: y :: ys) = w ++ ' ' :: joinWith [' '] (y :: ys) := by
        show w ++ [' '] ++ joinWith [' '] (y :: ys) = _
        simp
      unfold pyWords
      rw [hj, wordsAux_nonspace_chunk hwns (' ' :: joinWith [' '] (y :: ys)) []]
      show wordsAux (' ' :: joinWith [' '] (y :: ys)) (w.reverse ++ []) = _
      unfold wordsAux
      rw [if_pos (by decide)]
      rw [if_neg (by simpa using hwne)]
      rw [List.append_nil, List.reverse_reverse]
      have := ih (by simp) (fun u hu => hgood u (List.mem_cons_of_mem w hu))
      unfold pyWords at this
      rw [this]

theorem cleanLine_no_newline (l : Str) : '\n' ∉ cleanLine l := by
  unfold cleanLine
  split
  · intro hmem
    rcases mem_joinWith hmem with hsep | ⟨w, hw, hcw⟩
    · simp at hsep
    · have := (pyWords_good l w hw).2 '\n' hcw
      simp [pyIsSpace] at this
  · simp

theorem cleanLine_eq (x : Str) :
    cleanLine x = if strip x ≠ [] then joinWith [' '] (pyWords x) else [] := rfl

theorem cleanLine_idem (l : Str) : cleanLine (cleanLine l) = cleanLine l := by
  by_cases h : strip l ≠ []
  · have hl : cleanLine l = joinWith [' '] (pyWords l) := by
      rw [cleanLine_eq, if_pos h]
    obtain ⟨c, hcl, hcns⟩ := exists_nonspace_of_strip_ne_nil h
    have hwne : pyWords l ≠ [] := wordsAux_ne_nil l [] (Or.inl ⟨c, hcl, hcns⟩)
    have hgood := pyWords_good l
    have hwords : pyWords (cleanLine l) = pyWords l := by
      rw [hl]
      exact pyWords_joinWith (pyWords l) hwne hgood
    have hstrip : strip (cleanLine l) ≠ [] := by
      obtain ⟨w, hw⟩ := List.exists_mem_of_ne_nil _ hwne
      obtain ⟨hwne2, hwns⟩ := hgood w hw
      obtain ⟨d, hd⟩ := List.exists_mem_of_ne_nil _ hwne2
      have hdj : d ∈ cleanLine l := by
        rw [hl]
        exact mem_joinWith_of_mem hw hd
      exact strip_ne_nil_of_mem hdj (hwns d hd)
    rw [cleanLine_eq (cleanLine l), if_pos hstrip, hwords, ← hl]
  · push_neg at h
    have hl : cleanLine l = [] := by
      rw [cleanLine_eq, if_neg (by simpa using h)]
    rw [hl]
    rfl

/-- C9: normalization is idempotent:
`clean_and_prepare_text (clean_and_prepare_text x) = clean_and_prepare_text x`
for every input string. -/
theorem claim_C9 (x : Str) :
    clean_and_prepare_text (clean_and_prepare_text x) = clean_and_prepare_text x := by
  unfold clean_and_prepare_text
  set L := (splitChar '\n' x).map cleanLine with hL
  have hLne : L ≠ [] := by
    rw [hL]
    simp only [ne_eq, List.map_eq_nil_iff]
    exact splitChar_ne_nil '\n' x
  have hLnonl : ∀ l ∈ L, '\n' ∉ l := by
    intro l hl
    rw [hL] at hl
    obtain ⟨l0, _, hl0⟩ := List.mem_map.mp hl
    rw [← hl0]
    exact cleanLine_no_newline l0
  rw [splitChar_joinWith '\n' L hLne hLnonl]
  congr 1
  calc L.map cleanLine = ((splitChar '\n' x).map cleanLine).map cleanLine := by rw [hL]
    _ = (splitChar '\n' x).map (fun l => cleanLine (cleanLine l)) := by
        rw [List.map_map]; rfl
    _ = (splitChar '\n' x).map cleanLine := by
        apply List.map_congr_left
        intro a _
        exact cleanLine_idem a
    _ = L := by rw [hL]

/-- Proof artifact: the greedy packing loop of the segmenter, acting on the
list of already-decorated non-blank sentences (index bookkeeping and blank
skipping already resolved). -/
def packD (maxLen : Nat) : List Str → Str → List Str
  | [], cur => if strip cur ≠ [] then [strip cur] else []
  | s2 :: rest, cur =>
    if maxLen < (cur ++ s2).length ∧ cur ≠ [] then strip cur :: packD maxLen rest s2
    else packD maxLen rest (cur ++ s2)

/-- Proof artifact: the same loop, keeping each chunk as the list of
decorated sentences it packs rather than as their concatenation. -/
def packG (maxLen : Nat) : List Str → List Str → List (List Str)
  | [], pend => if pend = [] then [] else [pend]
  | s2 :: rest, pend =>
    if maxLen < (pend.flatten ++ s2).length ∧ pend ≠ [] then pend :: packG maxLen rest [s2]
    else packG maxLen rest (pend ++ [s2])

/-- The decorated non-blank candidate sentences, starting from index `i`:
exactly the sentence values the packing loop feeds its buffer. -/
def decoratedFrom (n : Nat) : Nat → List Str → List Str
  | _, [] => []
  | i, s :: rest =>
    if strip s = [] then decoratedFrom n (i+1) rest
    else decorateSentence n i s :: decoratedFrom n (i+1) rest

/-- A string containing at least one non-whitespace character. -/
def goodStr (s : Str) : Prop := ∃ c ∈ s, pyIsSpace c = false

theorem goodStr_ne_nil {s : Str} (h : goodStr s) : s ≠ [] := by
  obtain ⟨c, hc, _⟩ := h
  exact List.ne_nil_of_mem hc

theorem goodStr_strip_ne_nil {s : Str} (h : goodStr s) : strip s ≠ [] := by
  obtain ⟨c, hc, hns⟩ := h
  exact strip_ne_nil_of_mem hc hns

theorem exists_nonspace_mem_strip {l : Str} (h : strip l ≠ []) : goodStr (strip l) := by
  obtain ⟨c, hc, hns⟩ := exists_nonspace_of_strip_ne_nil h
  exact ⟨c, mem_strip_of_mem hc hns, hns⟩

theorem goodStr_append_left {s t : Str} (h : goodStr s) : goodStr (s ++ t) := by
  obtain ⟨c, hc, hns⟩ := h
  exact ⟨c, List.mem_append.mpr (Or.inl hc), hns⟩

theorem goodStr_decorate {n i : Nat} {s : Str} (h : strip s ≠ []) :
    goodStr (decorateSentence n i s) := by
  unfold decorateSentence
  have hg : goodStr (strip s) := exists_nonspace_mem_strip h
  split
  · split
    · exact goodStr_append_left hg
    · exact goodStr_append_left hg
  · exact hg

theorem decoratedFrom_good (n : Nat) :
    ∀ ss i, ∀ s2 ∈ decoratedFrom n i ss, goodStr s2 := by
  intro ss
  induction ss with
  | nil => intro i s2 h; cases h
  | cons s rest ih =>
    intro i s2 h
    unfold decoratedFrom at h
    split at h
    · exact ih (i+1) s2 h
    · next hne =>
      rcases List.mem_cons.mp h with he | he
      · exact he ▸ goodStr_decorate hne
      · exact ih (i+1) s2 he

theorem decoratedFrom_mem (n : Nat) :
    ∀ ss i, ∀ s2 ∈ decoratedFrom n i ss,
      ∃ k < ss.length, strip (ss.getD k []) ≠ [] ∧
        s2 = decorateSentence n (i+k) (ss.getD k []) := by
  intro ss
  induction ss with
  | nil => intro i s2 h; cases h
  | cons s rest ih =>
    intro i s2 h
    unfold decoratedFrom at h
    split at h
    · obtain ⟨k, hk, hne, he⟩ := ih (i+1) s2 h
      refine ⟨k+1, by simpa using hk, by simpa using hne, ?_⟩
      simpa [Nat.add_assoc, Nat.add_comm 1 k] using he
    · next hne =>
      rcases List.mem_cons.mp h with he | he
      · exact ⟨0, by simp, by simpa using hne, by simpa using he⟩
      · obtain ⟨k, hk, hkne, hke⟩ := ih (i+1) s2 he
        refine ⟨k+1, by simpa using hk, by simpa using hkne, ?_⟩
        simpa [Nat.add_assoc, Nat.add_comm 1 k] using hke

theorem goodStr_flatten_of_ne_nil {g : List Str} (hne : g ≠ [])
    (hgood : ∀ s ∈ g, goodStr s) : goodStr g.flatten := by
  obtain ⟨s, hs⟩ := List.exists_mem_of_ne_nil g hne
  obtain ⟨c, hc, hns⟩ := hgood s hs
  exact ⟨c, List.mem_flatten.mpr ⟨s, hs, hc⟩, hns⟩

theorem flatten_ne_nil_iff_of_good {pend : List Str} (hgood : ∀ s ∈ pend, goodStr s) :
    pend.flatten ≠ [] ↔ pend ≠ [] := by
  constructor
  · intro h hc
    subst hc
    exact h rfl
  · intro h
    exact goodStr_ne_nil (goodStr_flatten_of_ne_nil h hgood)

theorem packSentences_eq_packD (maxLen n : Nat) :
    ∀ ss i cur chunks0, packSentences maxLen n i ss cur chunks0
      = chunks0 ++ packD maxLen (decoratedFrom n i ss) cur := by
  intro ss
  induction ss with
  | nil =>
    intro i cur chunks0
    show (if strip cur ≠ [] then chunks0 ++ [strip cur] else chunks0) = _
    unfold decoratedFrom packD
    split
    · rfl
    · simp
  | cons s rest ih =>
    intro i cur chunks0
    show (if strip s = [] then packSentences maxLen n (i+1) rest cur chunks0 else _) = _
    unfold decoratedFrom
    by_cases hs : strip s = []
    · rw [if_pos hs, if_pos hs, ih (i+1) cur chunks0]
    · rw [if_neg hs, if_neg hs]
      show (if maxLen < (cur ++ decorateSentence n i s).length ∧ cur ≠ [] then _ else _) = _
      unfold packD
      by_cases hcond : maxLen < (cur ++ decorateSentence n i s).length ∧ cur ≠ []
      · rw [if_pos hcond, if_pos hcond, ih (i+1) (decorateSentence n i s) (chunks0 ++ [strip cur])]
        simp
      · rw [if_neg hcond, if_neg hcond, ih (i+1) (cur ++ decorateSentence n i s) chunks0]

theorem packD_eq_packG (maxLen : Nat) :
    ∀ D pend, (∀ s ∈ D, goodStr s) → (∀ s ∈ pend, goodStr s) →
      packD maxLen D pend.flatten = (packG maxLen D pend).map (fun g => strip g.flatten) := by
  intro D
  induction D with
  | nil =>
    intro pend _ hpend
    unfold packD packG
    by_cases hp : pend = []
    · subst hp
      simp [strip]
    · rw [if_neg hp]
      rw [if_pos (goodStr_strip_ne_nil (goodStr_flatten_of_ne_nil hp hpend))]
      rfl
  | cons s2 D' ih =>
    intro pend hD hpend
    have hs2 : goodStr s2 := hD s2 (List.mem_cons_self s2 D')
    have hD' : ∀ s ∈ D', goodStr s := fun s hs => hD s (List.mem_cons_of_mem s2 hs)
    have hiff : pend.flatten ≠ [] ↔ pend ≠ [] := flatten_ne_nil_iff_of_good hpend
    unfold packD packG
    by_cases hcond : maxLen < (pend.flatten ++ s2).length ∧ pend ≠ []
    · rw [if_pos ⟨hcond.1, hiff.mpr hcond.2⟩, if_pos hcond]
      have : packD maxLen D' s2 = packD maxLen D' ([s2]).flatten := by simp
      rw [this, ih [s2] hD' (by
        intro s hs
        rcases List.mem_cons.mp hs with he | he
        · exact he ▸ hs2
        · cases he)]
      rfl
    · have hcond2 : ¬ (maxLen < (pend.flatten ++ s2).length ∧ pend.flatten ≠ []) := by
        intro ⟨h1, h2⟩
        exact hcond ⟨h1, hiff.mp h2⟩
      rw [if_neg hcond2, if_neg hcond]
      have : pend.flatten ++ s2 = (pend ++ [s2]).flatten := by simp
      rw [this, ih (pend ++ [s2]) hD' (by
        intro s hs
        rcases List.mem_append.mp hs with he | he
        · exact hpend s he
        · rcases List.mem_cons.mp he with hf | hf
          · exact hf ▸ hs2
          · cases hf)]

theorem packG_flatten (maxLen : Nat) :
    ∀ D pend, (packG maxLen D pend).flatten = pend ++ D := by
  intro D
  induction D with
  | nil =>
    intro pend
    unfold packG
    by_cases hp : pend = []
    · subst hp; simp
    · rw [if_neg hp]; simp
  | cons s2 D' ih =>
    intro pend
    unfold packG
    by_cases hcond : maxLen < (pend.flatten ++ s2).length ∧ pend ≠ []
    · rw [if_pos hcond]
      show pend ++ (packG maxLen D' [s2]).flatten = _
      rw [ih [s2]]
      simp
    · rw [if_neg hcond, ih (pend ++ [s2])]
      simp

theorem packG_ne_nil (maxLen : Nat) :
    ∀ D pend, ∀ g ∈ packG maxLen D pend, g ≠ [] := by
  intro D
  induction D with
  | nil =>
    intro pend g hg
    unfold packG at hg
    split at hg
    · cases hg
    · next hp =>
      rcases List.mem_cons.mp hg with he | he
      · exact he ▸ hp
      · cases he
  | cons s2 D' ih =>
    intro pend g hg
    unfold packG at hg
    split at hg
    · next hcond =>
      rcases List.mem_cons.mp hg with he | he
      · exact he ▸ hcond.2
      · exact ih [s2] g he
    · exact ih (pend ++ [s2]) g (by
        simpa using hg)

theorem packG_mem_src (maxLen : Nat) :
    ∀ D pend, ∀ g ∈ packG maxLen D pend, ∀ s ∈ g, s ∈ D ∨ s ∈ pend := by
  intro D
  induction D with
  | nil =>
    intro pend g hg s hs
    unfold packG at hg
    split at hg
    · cases hg
    · rcases List.mem_cons.mp hg with he | he
      · exact Or.inr (he ▸ hs)
      · cases he
  | cons s2 D' ih =>
    intro pend g hg s hs
    unfold packG at hg
    split at hg
    · rcases List.mem_cons.mp hg with he | he
      · exact Or.inr (he ▸ hs)
      · rcases ih [s2] g he s hs with hD | hp
        · exact Or.inl (List.mem_cons_of_mem s2 hD)
        · rcases List.mem_cons.mp hp with hf | hf
          · exact Or.inl (hf ▸ List.mem_cons_self s2 D')
          · cases hf
    · rcases ih (pend ++ [s2]) g hg s hs with hD | hp
      · exact Or.inl (List.mem_cons_of_mem s2 hD)
      · rcases List.mem_append.mp hp with he | he
        · exact Or.inr he
        · rcases List.mem_cons.mp he with hf | hf
          · exact Or.inl (hf ▸ List.mem_cons_self s2 D')
          · cases hf

/-- Invariant on the pending group of `packG`: it is empty, within budget, or
a single oversized decorated sentence. -/
def pendInv (maxLen : Nat) (pend : List Str) : Prop :=
  pend = [] ∨ pend.flatten.length ≤ maxLen ∨ ∃ s, pend = [s] ∧ maxLen < s.length

theorem packG_budget (maxLen : Nat) :
    ∀ D pend, pendInv maxLen pend → ∀ g ∈ packG maxLen D pend,
      g.flatten.length ≤ maxLen ∨
        ∃ s, g = [s] ∧ maxLen < s.length ∧ (s ∈ D ∨ pend = [s]) := by
  intro D
  induction D with
  | nil =>
    intro pend hinv g hg
    unfold packG at hg
    split at hg
    · cases hg
    · next hp =>
      rcases List.mem_cons.mp hg with he | he
      · subst he
        rcases hinv with h0 | hle | ⟨s, hs, hlen⟩
        · exact absurd h0 hp
        · exact Or.inl hle
        · exact Or.inr ⟨s, hs, hlen, Or.inr hs⟩
      · cases he
  | cons s2 D' ih =>
    intro pend hinv g hg
    unfold packG at hg
    split at hg
    · next hcond =>
      rcases List.mem_cons.mp hg with he | he
      · subst he
        rcases hinv with h0 | hle | ⟨s, hs, hlen⟩
        · exact absurd h0 hcond.2
        · exact Or.inl hle
        · exact Or.inr ⟨s, hs, hlen, Or.inr hs⟩
      · have hinv2 : pendInv maxLen [s2] := by
          by_cases hlen : s2.length ≤ maxLen
          · exact Or.inr (Or.inl (by simpa using hlen))
          · exact Or.inr (Or.inr ⟨s2, rfl, Nat.lt_of_not_le hlen⟩)
        rcases ih [s2] hinv2 g he with hle | ⟨s, hgs, hslen, hsrc⟩
        · exact Or.inl hle
        · refine Or.inr ⟨s, hgs, hslen, Or.inl ?_⟩
          rcases hsrc with hD | hp
          · exact List.mem_cons_of_mem s2 hD
          · have h1 : s2 = s := by simpa using hp
            rw [← h1]
            exact List.mem_cons_self s2 D'
    · next hcond =>
      have hinv2 : pendInv maxLen (pend ++ [s2]) := by
        rcases Decidable.not_and_iff_or_not.mp hcond with hlen | hpe
        · refine Or.inr (Or.inl ?_)
          have : (pend ++ [s2]).flatten = pend.flatten ++ s2 := by simp
          rw [this]
          exact Nat.le_of_not_lt hlen
        · have hpe2 : pend = [] := Decidable.not_not.mp hpe
          subst hpe2
          by_cases hlen : s2.length ≤ maxLen
          · exact Or.inr (Or.inl (by simpa using hlen))
          · exact Or.inr (Or.inr ⟨s2, rfl, Nat.lt_of_not_le hlen⟩)
      rcases ih (pend ++ [s2]) hinv2 g hg with hle | ⟨s, hgs, hslen, hsrc⟩
      · exact Or.inl hle
      · refine Or.inr ⟨s, hgs, hslen, Or.inl ?_⟩
        rcases hsrc with hD | hp
        · exact List.mem_cons_of_mem s2 hD
        · have hlen1 : pend.length + 1 = 1 := by
            have := congrArg List.length hp
            simpa using this
          have hpe : pend = [] := by
            cases pend with
            | nil => rfl
            | cons a t => simp at hlen1
          subst hpe
          have h1 : s2 = s := by simpa using hp
          rw [← h1]
          exact List.mem_cons_self s2 D'

theorem paragraphChunks_long (maxLen : Nat) (p : Str) (hlong : maxLen < p.length) :
    paragraphChunks maxLen p =
      (packG maxLen (decoratedFrom (reSplitSent p).length 0 (reSplitSent p)) []).map
        (fun g => strip g.flatten) := by
  unfold paragraphChunks
  rw [if_neg (Nat.not_le.mpr hlong)]
  rw [packSentences_eq_packD maxLen (reSplitSent p).length (reSplitSent p) 0 [] []]
  rw [List.nil_append]
  have h0 : ([] : Str) = ([] : List Str).flatten := rfl
  rw [h0, packD_eq_packG maxLen _ []
    (decoratedFrom_good (reSplitSent p).length (reSplitSent p) 0)
    (by intro s hs; cases hs)]

theorem paragraphChunks_char (maxLen : Nat) (p : Str) (hlong : maxLen < p.length) :
    ∃ gs : List (List Str),
      gs.flatten = decoratedFrom (reSplitSent p).length 0 (reSplitSent p) ∧
      (∀ g ∈ gs, g ≠ []) ∧
      (∀ g ∈ gs, ∀ s ∈ g, goodStr s) ∧
      paragraphChunks maxLen p = gs.map (fun g => strip g.flatten) := by
  refine ⟨packG maxLen (decoratedFrom (reSplitSent p).length 0 (reSplitSent p)) [],
    ?_, ?_, ?_, paragraphChunks_long maxLen p hlong⟩
  · rw [packG_flatten]
    rfl
  · exact packG_ne_nil maxLen _ []
  · intro g hg s hs
    rcases packG_mem_src maxLen _ [] g hg s hs with h | h
    · exact decoratedFrom_good (reSplitSent p).length (reSplitSent p) 0 s h
    · cases h

theorem mem_split_text_smart {text : Str} {maxLen : Nat} {ch : Str}
    (hch : ch ∈ split_text_smart text maxLen) :
    ∃ p ∈ (splitOn2NL text).map strip, p ≠ [] ∧ ch ∈ paragraphChunks maxLen p := by
  unfold split_text_smart at hch
  obtain ⟨p, hpmem, hchp⟩ := List.mem_flatMap.mp hch
  obtain ⟨hpmap, hpdec⟩ := List.mem_filter.mp hpmem
  exact ⟨p, hpmap, of_decide_eq_true hpdec, hchp⟩

/-- C4 counterexample (to the claim as stated): on the paragraph
`"abcde. xy"` with budget 5, every candidate sentence produced by the
terminator split (`"abcde"` and `"xy"`) is within the budget, yet the
segmenter emits the chunk `"abcde."` of length 6 — the re-appended
terminator pushed it over, so a chunk can exceed `maxLength` even though no
candidate sentence alone exceeds it, and the oversized chunk is not a
candidate sentence taken unmodified. -/
theorem claim_C4_cex :
    (∀ s ∈ reSplitSent "abcde. xy".data, s.length ≤ 5) ∧
    ¬ (∀ ch ∈ split_text_smart "abcde. xy".data 5,
        ch.length ≤ 5 ∨ (5 < ch.length ∧ ch ∈ reSplitSent "abcde. xy".data)) := by
  decide

/-- C4 (amended): every chunk produced by `split_text_smart` has length at
most `maxLength`, except when a single candidate sentence, after the
terminator re-append step, exceeds `maxLength`; in that case the chunk is
exactly that decorated sentence with outer whitespace stripped (it is never
split at word or character level). -/
theorem claim_C4 (text : Str) (maxLen : Nat) (ch : Str)
    (hch : ch ∈ split_text_smart text maxLen) :
    ch.length ≤ maxLen ∨
      ∃ p ∈ (splitOn2NL text).map strip, p ≠ [] ∧ maxLen < p.length ∧
        ∃ k < (reSplitSent p).length,
          strip ((reSplitSent p).getD k []) ≠ [] ∧
          maxLen <
            (decorateSentence (reSplitSent p).length k ((reSplitSent p).getD k [])).length ∧
          ch = strip (decorateSentence (reSplitSent p).length k ((reSplitSent p).getD k [])) := by
  obtain ⟨p, hpmap, hpne, hchp⟩ := mem_split_text_smart hch
  by_cases hshort : p.length ≤ maxLen
  · left
    unfold paragraphChunks at hchp
    rw [if_pos hshort] at hchp
    rcases List.mem_cons.mp hchp with he | he
    · exact he ▸ hshort
    · cases he
  · have hlong : maxLen < p.length := Nat.lt_of_not_le hshort
    rw [paragraphChunks_long maxLen p hlong] at hchp
    obtain ⟨g, hg, hche⟩ := List.mem_map.mp hchp
    rcases packG_budget maxLen _ [] (Or.inl rfl) g hg with hle | ⟨s, hgs, hslen, hsrc⟩
    · left
      rw [← hche]
      exact Nat.le_trans (strip_length_le _) hle
    · rcases hsrc with hsD | hpend
      · right
        obtain ⟨k, hk, hkne, hke⟩ :=
          decoratedFrom_mem (reSplitSent p).length (reSplitSent p) 0 s hsD
        rw [Nat.zero_add] at hke
        refine ⟨p, hpmap, hpne, hlong, k, hk, hkne, hke ▸ hslen, ?_⟩
        rw [← hke, ← hche, hgs]
        simp
      · cases hpend

/-- C7: on the segmentation path (paragraph longer than the budget), the
chunks of `split_text_smart` are exactly the greedy groupings, in order, of
the non-blank candidate sentences after the terminator re-append step: each
non-last candidate gets a period-plus-space when it contains a Latin letter
and an Arabic comma-plus-space otherwise (the rule recorded by
`decorateSentence` / `decoratedFrom`). -/
theorem claim_C7 (p : Str) (maxLen : Nat) (hlong : maxLen < p.length) :
    ∃ gs : List (List Str),
      gs.flatten = decoratedFrom (reSplitSent p).length 0 (reSplitSent p) ∧
      paragraphChunks maxLen p = gs.map (fun g => strip g.flatten) := by
  obtain ⟨gs, h1, _, _, h4⟩ := paragraphChunks_char maxLen p hlong
  exact ⟨gs, h1, h4⟩

/-- Witness for C7 at the paragraph `"abcde. xy"` with budget 5. -/
theorem claim_C7_witness :
    5 < ("abcde. xy".data : Str).length ∧
    ∃ gs : List (List Str),
      gs.flatten =
        decoratedFrom (reSplitSent "abcde. xy".data).length 0 (reSplitSent "abcde. xy".data) ∧
      paragraphChunks 5 "abcde. xy".data = gs.map (fun g => strip g.flatten) :=
  ⟨by decide, claim_C7 "abcde. xy".data 5 (by decide)⟩

/-- C8: no chunk returned by `split_text_smart` is empty; a paragraph within
the budget forms a single chunk (itself); and on the segmentation path the
chunk sequence is the in-order greedy grouping of the decorated non-blank
candidate sentences — no sentence is reordered across or within chunks. -/
theorem claim_C8 :
    (∀ (text : Str) (maxLen : Nat), ∀ ch ∈ split_text_smart text maxLen, ch ≠ []) ∧
    (∀ (p : Str) (maxLen : Nat), p.length ≤ maxLen → paragraphChunks maxLen p = [p]) ∧
    (∀ (p : Str) (maxLen : Nat), maxLen < p.length →
      ∃ gs : List (List Str),
        gs.flatten = decoratedFrom (reSplitSent p).length 0 (reSplitSent p) ∧
        (∀ g ∈ gs, g ≠ []) ∧
        paragraphChunks maxLen p = gs.map (fun g => strip g.flatten)) := by
  refine ⟨?_, ?_, ?_⟩
  · intro text maxLen ch hch
    obtain ⟨p, hpmap, hpne, hchp⟩ := mem_split_text_smart hch
    by_cases hshort : p.length ≤ maxLen
    · unfold paragraphChunks at hchp
      rw [if_pos hshort] at hchp
      rcases List.mem_cons.mp hchp with he | he
      · exact he ▸ hpne
      · cases he
    · have hlong : maxLen < p.length := Nat.lt_of_not_le hshort
      obtain ⟨gs, _, hne, hgood, hchunks⟩ := paragraphChunks_char maxLen p hlong
      rw [hchunks] at hchp
      obtain ⟨g, hg, hche⟩ := List.mem_map.mp hchp
      rw [← hche]
      exact goodStr_strip_ne_nil
        (goodStr_flatten_of_ne_nil (hne g hg) (hgood g hg))
  · intro p maxLen hshort
    unfold paragraphChunks
    rw [if_pos hshort]
  · intro p maxLen hlong
    obtain ⟨gs, h1, h2, _, h4⟩ := paragraphChunks_char maxLen p hlong
    exact ⟨gs, h1, h2, h4⟩

/-- Witness for C8 at the chunk `"abcde."` of `split_text_smart "abcde. xy" 5`. -/
theorem claim_C8_witness :
    ("abcde.".data ∈ split_text_smart "abcde. xy".data 5) ∧ "abcde.".data ≠ ([] : Str) :=
  ⟨by decide, claim_C8.1 "abcde. xy".data 5 "abcde.".data (by decide)⟩

/-- Witness for C4 at the oversized chunk `"abcde."` produced with budget 5
from `"abcde. xy"`. -/
theorem claim_C4_witness :
    ("abcde.".data ∈ split_text_smart "abcde. xy".data 5) ∧
    (("abcde.".data : Str).length ≤ 5 ∨
      ∃ p ∈ (splitOn2NL "abcde. xy".data).map strip, p ≠ [] ∧ 5 < p.length ∧
        ∃ k < (reSplitSent p).length,
          strip ((reSplitSent p).getD k []) ≠ [] ∧
          5 < (decorateSentence (reSplitSent p).length k ((reSplitSent p).getD k [])).length ∧
          "abcde.".data =
            strip (decorateSentence (reSplitSent p).length k ((reSplitSent p).getD k []))) :=
  ⟨by decide, claim_C4 "abcde. xy".data 5 "abcde.".data (by decide)⟩

theorem joinWith_consHead (sep : Str) (c : Char) (L : List Str) :
    joinWith sep (consHead c L) = c :: joinWith sep L := by
  cases L with
  | nil => rfl
  | cons t ts =>
    cases ts with
    | nil => rfl
    | cons u us => rfl

theorem splitOn2NL_cons_ne (c : Char) (rest : Str)
    (h : ∀ rest', c = '\n' → rest = '\n' :: rest' → False) :
    splitOn2NL (c :: rest) = consHead c (splitOn2NL rest) := by
  conv_lhs => rw [splitOn2NL.eq_def]
  split
  · rename_i heq
    cases heq
  · rename_i r heq
    obtain ⟨h1, h2⟩ := List.cons.inj heq
    exact absurd (h r h1 h2) not_false
  · rename_i c2 rest2 _ heq
    obtain ⟨h1, h2⟩ := List.cons.inj heq
    rw [h1, h2]

theorem joinWith_splitOn2NL (s : Str) : joinWith ['\n', '\n'] (splitOn2NL s) = s := by
  induction s using splitOn2NL.induct with
  | case1 => rfl
  | case2 rest ih =>
    show joinWith ['\n', '\n'] ([] :: splitOn2NL rest) = _
    cases hsp : splitOn2NL rest with
    | nil =>
      cases rest with
      | nil => cases hsp
      | cons a t =>
        rw [splitOn2NL.eq_def] at hsp
        revert hsp
        split
        · intro hsp; cases hsp
        · intro hsp; cases hsp
        · intro hsp
          exact absurd hsp (consHead_ne_nil _ _)
    | cons x xs =>
      show [] ++ ['\n', '\n'] ++ joinWith ['\n', '\n'] (x :: xs) = _
      rw [← hsp, ih]
      rfl
  | case3 c rest h1 ih =>
    rw [splitOn2NL_cons_ne c rest h1, joinWith_consHead, ih]

theorem take_succ_getD (l : List Str) :
    ∀ k, k < l.length → l.take (k+1) = l.take k ++ [l.getD k []] := by
  induction l with
  | nil => intro k hk; simp at hk
  | cons a t ih =>
    intro k hk
    cases k with
    | zero => simp
    | succ k' =>
      rw [List.take_succ_cons, List.take_succ_cons, ih k' (by simpa using hk)]
      simp

theorem translateChunksLoop_nil (engine : Engine) (pi j : Nat) (acc calls : List Str) :
    translateChunksLoop engine pi j [] acc calls = (.ok acc, calls) := rfl

theorem translateChunksLoop_cons (engine : Engine) (pi j : Nat) (ch : Str)
    (rest : List Str) (acc calls : List Str) :
    translateChunksLoop engine pi j (ch :: rest) acc calls =
      match engine ch with
      | .error e => (.error (failChunkMsg (j+1) pi e), calls ++ [ch])
      | .ok t =>
        translateChunksLoop engine pi (j+1) rest
          (if t ≠ [] then acc ++ [t] else acc) (calls ++ [ch]) := rfl

theorem translateChunksLoop_ok (engine : Engine) (pi : Nat) (tr : Str → Str) :
    ∀ chunks j acc calls, (∀ ch ∈ chunks, engine ch = .ok (tr ch)) →
      translateChunksLoop engine pi j chunks acc calls =
        (.ok (acc ++ ((chunks.map tr).filter (fun t => decide (t ≠ [])))), calls ++ chunks) := by
  intro chunks
  induction chunks with
  | nil =>
    intro j acc calls _
    simp [translateChunksLoop_nil]
  | cons ch rest ih =>
    intro j acc calls hok
    have hch : engine ch = .ok (tr ch) := hok ch (List.mem_cons_self ch rest)
    rw [translateChunksLoop_cons, hch]
    show translateChunksLoop engine pi (j+1) rest
        (if tr ch ≠ [] then acc ++ [tr ch] else acc) (calls ++ [ch]) = _
    rw [ih (j+1) _ _ (fun c hc => hok c (List.mem_cons_of_mem ch hc))]
    by_cases ht : tr ch ≠ []
    · rw [if_pos ht]
      simp [List.filter_cons, ht]
    · rw [if_neg ht]
      simp only [ne_eq, Decidable.not_not] at ht
      simp [List.filter_cons, ht]

theorem translateChunksLoop_ok_calls (engine : Engine) (pi : Nat) :
    ∀ chunks j acc calls ts calls',
      translateChunksLoop engine pi j chunks acc calls = (.ok ts, calls') →
      calls' = calls ++ chunks ∧ ∀ ch ∈ chunks, ∃ t, engine ch = .ok t := by
  intro chunks
  induction chunks with
  | nil =>
    intro j acc calls ts calls' h
    rw [translateChunksLoop_nil] at h
    obtain ⟨-, h2⟩ := Prod.mk.inj h
    refine ⟨by simp [h2], by simp⟩
  | cons ch rest ih =>
    intro j acc calls ts calls' h
    rw [translateChunksLoop_cons] at h
    cases heng : engine ch with
    | error e =>
      rw [heng] at h
      have h2 : (Except.error (failChunkMsg (j+1) pi e) : Except Str (List Str)) = .ok ts :=
        (Prod.mk.inj h).1
      cases h2
    | ok t =>
      rw [heng] at h
      have h' : translateChunksLoop engine pi (j+1) rest
          (if t ≠ [] then acc ++ [t] else acc) (calls ++ [ch]) = (.ok ts, calls') := h
      obtain ⟨hc, hok⟩ := ih (j+1) _ _ ts calls' h'
      refine ⟨by simp [hc], ?_⟩
      intro c hc2
      rcases List.mem_cons.mp hc2 with he | he
      · exact ⟨t, he ▸ heng⟩
      · exact hok c he

theorem translateChunksLoop_err (engine : Engine) (pi : Nat) :
    ∀ chunks j acc calls m calls',
      translateChunksLoop engine pi j chunks acc calls = (.error m, calls') →
      ∃ k < chunks.length, ∃ e,
        engine (chunks.getD k []) = .error e ∧
        (∀ c' ∈ chunks.take k, ∃ t, engine c' = .ok t) ∧
        m = failChunkMsg (j+k+1) pi e ∧
        calls' = calls ++ chunks.take (k+1) := by
  intro chunks
  induction chunks with
  | nil =>
    intro j acc calls m calls' h
    rw [translateChunksLoop_nil] at h
    cases (Prod.mk.inj h).1
  | cons ch rest ih =>
    intro j acc calls m calls' h
    rw [translateChunksLoop_cons] at h
    cases heng : engine ch with
    | error e =>
      rw [heng] at h
      have h' : ((Except.error (failChunkMsg (j+1) pi e) : Except Str (List Str)),
          calls ++ [ch]) = (.error m, calls') := h
      obtain ⟨h1, h2⟩ := Prod.mk.inj h'
      have hm : failChunkMsg (j+1) pi e = m := by
        cases h1
        rfl
      refine ⟨0, by simp, e, by simpa using heng, by simp, ?_, ?_⟩
      · rw [← hm]
      · rw [← h2]
        simp
    | ok t =>
      rw [heng] at h
      have h' : translateChunksLoop engine pi (j+1) rest
          (if t ≠ [] then acc ++ [t] else acc) (calls ++ [ch]) = (.error m, calls') := h
      obtain ⟨k, hk, e, he, hpre, hm, hcalls⟩ := ih (j+1) _ _ m calls' h'
      refine ⟨k+1, by simpa using hk, e, by simpa using he, ?_, ?_, ?_⟩
      · intro c' hc'
        rw [List.take_succ_cons] at hc'
        rcases List.mem_cons.mp hc' with hc | hc
        · exact ⟨t, hc ▸ heng⟩
        · exact hpre c' hc
      · rw [hm]
        congr 1
        omega
      · rw [hcalls, List.take_succ_cons]
        simp

theorem translateParagraphsLoop_nil (engine : Engine) (i : Nat) (acc calls : List Str) :
    translateParagraphsLoop engine i [] acc calls =
      (.ok (strip (joinWith ['\n', '\n']
        (acc.filter (fun para => decide (strip para ≠ []))))), calls) := rfl

theorem translateParagraphsLoop_cons (engine : Engine) (i : Nat) (para : Str)
    (rest : List Str) (acc calls : List Str) :
    translateParagraphsLoop engine i (para :: rest) acc calls =
      if strip para = [] then translateParagraphsLoop engine (i+1) rest (acc ++ [[]]) calls
      else if (strip para).length ≤ 300 then
        match engine (strip para) with
        | .error e => (.error (failParaMsg (i+1) e), calls ++ [strip para])
        | .ok t =>
          translateParagraphsLoop engine (i+1) rest (acc ++ [t]) (calls ++ [strip para])
      else
        match translateChunksLoop engine (i+1) 0 (split_text_smart (strip para) 300) [] calls with
        | (.error m, calls') => (.error m, calls')
        | (.ok ts, calls') =>
          translateParagraphsLoop engine (i+1) rest (acc ++ [joinWith [' '] ts]) calls' := rfl

theorem translateParagraphsLoop_ok (engine : Engine) :
    ∀ paras i acc calls r calls',
      translateParagraphsLoop engine i paras acc calls = (.ok r, calls') →
      ∃ newCalls, calls' = calls ++ newCalls ∧ ∀ c ∈ newCalls, ∃ t, engine c = .ok t := by
  intro paras
  induction paras with
  | nil =>
    intro i acc calls r calls' h
    rw [translateParagraphsLoop_nil] at h
    refine ⟨[], by simp [(Prod.mk.inj h).2], by simp⟩
  | cons para rest ih =>
    intro i acc calls r calls' h
    rw [translateParagraphsLoop_cons] at h
    by_cases hb : strip para = []
    · rw [if_pos hb] at h
      exact ih (i+1) _ _ r calls' h
    · rw [if_neg hb] at h
      by_cases hlen : (strip para).length ≤ 300
      · rw [if_pos hlen] at h
        cases heng : engine (strip para) with
        | error e =>
          rw [heng] at h
          cases (Prod.mk.inj h).1
        | ok t =>
          rw [heng] at h
          have h' : translateParagraphsLoop engine (i+1) rest (acc ++ [t])
              (calls ++ [strip para]) = (.ok r, calls') := h
          obtain ⟨nc, hnc, hok⟩ := ih (i+1) _ _ r calls' h'
          refine ⟨strip para :: nc, by simp [hnc], ?_⟩
          intro c hc
          rcases List.mem_cons.mp hc with he | he
          · exact ⟨t, he ▸ heng⟩
          · exact hok c he
      · rw [if_neg hlen] at h
        rcases hloop : translateChunksLoop engine (i+1) 0
            (split_text_smart (strip para) 300) [] calls with ⟨res0, calls0⟩
        rw [hloop] at h
        cases res0 with
        | error m0 =>
          have h' : ((Except.error m0 : Except Str Str), calls0) = (.ok r, calls') := h
          cases (Prod.mk.inj h').1
        | ok ts =>
          have h' : translateParagraphsLoop engine (i+1) rest
              (acc ++ [joinWith [' '] ts]) calls0 = (.ok r, calls') := h
          obtain ⟨hc0, hchok⟩ :=
            translateChunksLoop_ok_calls engine (i+1) _ 0 [] calls ts calls0 hloop
          obtain ⟨nc, hnc, hok⟩ := ih (i+1) _ _ r calls' h'
          refine ⟨split_text_smart (strip para) 300 ++ nc, by simp [hnc, hc0], ?_⟩
          intro c hc
          rcases List.mem_append.mp hc with he | he
          · exact hchok c he
          · exact hok c he

theorem translateParagraphsLoop_err (engine : Engine) :
    ∀ paras i acc calls m calls',
      translateParagraphsLoop engine i paras acc calls = (.error m, calls') →
      ∃ k < paras.length,
        strip (paras.getD k []) ≠ [] ∧
        ∃ e pre c,
          calls' = calls ++ pre ++ [c] ∧
          (∀ c' ∈ pre, ∃ t, engine c' = .ok t) ∧
          engine c = .error e ∧
          (((strip (paras.getD k [])).length ≤ 300 ∧ c = strip (paras.getD k []) ∧
              m = failParaMsg (i+k+1) e) ∨
           (300 < (strip (paras.getD k [])).length ∧
              ∃ j < (split_text_smart (strip (paras.getD k [])) 300).length,
                c = (split_text_smart (strip (paras.getD k [])) 300).getD j [] ∧
                m = failChunkMsg (j+1) (i+k+1) e)) := by
  intro paras
  induction paras with
  | nil =>
    intro i acc calls m calls' h
    rw [translateParagraphsLoop_nil] at h
    cases (Prod.mk.inj h).1
  | cons para rest ih =>
    intro i acc calls m calls' h
    rw [translateParagraphsLoop_cons] at h
    by_cases hb : strip para = []
    · rw [if_pos hb] at h
      obtain ⟨k, hk, hne, e, pre, c, hcalls, hpre, herr, hdisj⟩ := ih (i+1) _ _ m calls' h
      refine ⟨k+1, by simpa using hk, by simpa using hne, e, pre, c, hcalls, hpre, herr, ?_⟩
      have harith : i+1+k+1 = i+(k+1)+1 := by omega
      rw [harith] at hdisj
      simpa using hdisj
    · rw [if_neg hb] at h
      by_cases hlen : (strip para).length ≤ 300
      · rw [if_pos hlen] at h
        cases heng : engine (strip para) with
        | error e =>
          rw [heng] at h
          have h' : ((Except.error (failParaMsg (i+1) e) : Except Str Str),
              calls ++ [strip para]) = (.error m, calls') := h
          obtain ⟨h1, h2⟩ := Prod.mk.inj h'
          have hm : failParaMsg (i+1) e = m := by
            cases h1
            rfl
          refine ⟨0, by simp, by simpa using hb, e, [], strip para, by simp [← h2], by simp,
            by simpa using heng, Or.inl ⟨by simpa using hlen, by simp, ?_⟩⟩
          rw [← hm]
        | ok t =>
          rw [heng] at h
          have h' : translateParagraphsLoop engine (i+1) rest (acc ++ [t])
              (calls ++ [strip para]) = (.error m, calls') := h
          obtain ⟨k, hk, hne, e, pre, c, hcalls, hpre, herr, hdisj⟩ := ih (i+1) _ _ m calls' h'
          refine ⟨k+1, by simpa using hk, by simpa using hne, e, strip para :: pre, c,
            by simp [hcalls], ?_, herr, ?_⟩
          · intro c' hc'
            rcases List.mem_cons.mp hc' with he | he
            · exact ⟨t, he ▸ heng⟩
            · exact hpre c' he
          · have harith : i+1+k+1 = i+(k+1)+1 := by omega
            rw [harith] at hdisj
            simpa using hdisj
      · rw [if_neg hlen] at h
        rcases hloop : translateChunksLoop engine (i+1) 0
            (split_text_smart (strip para) 300) [] calls with ⟨res0, calls0⟩
        rw [hloop] at h
        cases res0 with
        | error m0 =>
          have h' : ((Except.error m0 : Except Str Str), calls0) = (.error m, calls') := h
          obtain ⟨h1, h2⟩ := Prod.mk.inj h'
          have hm : m0 = m := by
            cases h1
            rfl
          obtain ⟨kc, hkc, e, hengc, hpreok, hm0, hcalls0⟩ :=
            translateChunksLoop_err engine (i+1) _ 0 [] calls m0 calls0 hloop
          refine ⟨0, by simp, by simpa using hb, e,
            (split_text_smart (strip para) 300).take kc,
            (split_text_smart (strip para) 300).getD kc [], ?_, ?_, hengc,
            Or.inr ⟨by simpa using Nat.lt_of_not_le hlen, kc, by simpa using hkc, by simp, ?_⟩⟩
          · rw [← h2, hcalls0, take_succ_getD _ kc hkc]
            simp
          · intro c' hc'
            exact hpreok c' (by simpa using hc')
          · rw [← hm, hm0]
            congr 1
            omega
        | ok ts =>
          have h' : translateParagraphsLoop engine (i+1) rest
              (acc ++ [joinWith [' '] ts]) calls0 = (.error m, calls') := h
          obtain ⟨hc0, hchok⟩ :=
            translateChunksLoop_ok_calls engine (i+1) _ 0 [] calls ts calls0 hloop
          obtain ⟨k, hk, hne, e, pre, c, hcalls, hpre, herr, hdisj⟩ := ih (i+1) _ _ m calls' h'
          refine ⟨k+1, by simpa using hk, by simpa using hne, e,
            split_text_smart (strip para) 300 ++ pre, c, by simp [hcalls, hc0], ?_, herr, ?_⟩
          · intro c' hc'
            rcases List.mem_append.mp hc' with he | he
            · exact hchok c' he
            · exact hpre c' he
          · have harith : i+1+k+1 = i+(k+1)+1 := by omega
            rw [harith] at hdisj
            simpa using hdisj

/-- C2: on the structured path (normalized text non-blank and over the
budget), if any dispatched chunk fails then the returned result is an error;
and any returned error identifies a paragraph index `k` (1-based `k+1`) whose
stripped text was being translated, carries the engine's reason verbatim in
the source's message format (with the chunk index when the paragraph was
segmented), the failing chunk is the last dispatched call, every earlier call
succeeded, and no translated text is returned (the error constructor carries
none). -/
theorem claim_C2 (engine : Engine) (text : Str) (res : Except Str Str) (calls : List Str)
    (h1 : strip (clean_and_prepare_text text) ≠ [])
    (h2 : 300 < (clean_and_prepare_text text).length)
    (hrun : translate_with_structure_preservation engine text = (res, calls)) :
    ((∃ c ∈ calls, ∃ e, engine c = .error e) → ∃ m, res = .error m) ∧
    (∀ m, res = .error m →
      ∃ k < (splitOn2NL (clean_and_prepare_text text)).length,
        strip ((splitOn2NL (clean_and_prepare_text text)).getD k []) ≠ [] ∧
        ∃ e pre c,
          calls = pre ++ [c] ∧
          (∀ c' ∈ pre, ∃ t, engine c' = .ok t) ∧
          engine c = .error e ∧
          (((strip ((splitOn2NL (clean_and_prepare_text text)).getD k [])).length ≤ 300 ∧
              c = strip ((splitOn2NL (clean_and_prepare_text text)).getD k []) ∧
              m = failParaMsg (k+1) e) ∨
           (300 < (strip ((splitOn2NL (clean_and_prepare_text text)).getD k [])).length ∧
              ∃ j < (split_text_smart
                  (strip ((splitOn2NL (clean_and_prepare_text text)).getD k [])) 300).length,
                c = (split_text_smart
                  (strip ((splitOn2NL (clean_and_prepare_text text)).getD k [])) 300).getD j [] ∧
                m = failChunkMsg (j+1) (k+1) e))) := by
  have hrun' : translateParagraphsLoop engine 0
      (splitOn2NL (clean_and_prepare_text text)) [] [] = (res, calls) := by
    rw [← hrun]
    unfold translate_with_structure_preservation
    rw [if_neg h1, if_neg (Nat.not_le.mpr h2)]
  constructor
  · rintro ⟨c, hc, e, he⟩
    cases hres : res with
    | error m => exact ⟨m, rfl⟩
    | ok r =>
      rw [hres] at hrun'
      obtain ⟨nc, hnc, hok⟩ := translateParagraphsLoop_ok engine _ 0 [] [] r calls hrun'
      rw [List.nil_append] at hnc
      obtain ⟨t, ht⟩ := hok c (hnc ▸ hc)
      rw [ht] at he
      cases he
  · intro m hm
    rw [hm] at hrun'
    obtain ⟨k, hk, hne, e, pre, c, hcalls, hpre, herr, hdisj⟩ :=
      translateParagraphsLoop_err engine _ 0 [] [] m calls hrun'
    refine ⟨k, hk, hne, e, pre, c, by simpa using hcalls, hpre, herr, ?_⟩
    simpa [Nat.zero_add] using hdisj

/-- Failing engine for the C2 witness: every chunk fails with reason `"E"`. -/
def engFail : Engine := fun _ => .error "E".data

/-- A concrete structured-path document: two paragraphs of 200 and 150
characters (total 352, over the budget). -/
def exC2 : Str := List.replicate 200 'a' ++ "\n\n".data ++ List.replicate 150 'b'

/-- Witness for C2: with the always-failing engine on `exC2`, the run returns
the error for paragraph 1; the instantiated fail-fast conclusion holds. -/
theorem claim_C2_witness :
    (strip (clean_and_prepare_text exC2) ≠ [] ∧
     300 < (clean_and_prepare_text exC2).length) ∧
    (∃ k < (splitOn2NL (clean_and_prepare_text exC2)).length,
      strip ((splitOn2NL (clean_and_prepare_text exC2)).getD k []) ≠ [] ∧
      ∃ e pre c,
        [List.replicate 200 'a'] = pre ++ [c] ∧
        (∀ c' ∈ pre, ∃ t, engFail c' = .ok t) ∧
        engFail c = .error e ∧
        (((strip ((splitOn2NL (clean_and_prepare_text exC2)).getD k [])).length ≤ 300 ∧
            c = strip ((splitOn2NL (clean_and_prepare_text exC2)).getD k []) ∧
            failParaMsg 1 "E".data = failParaMsg (k+1) e) ∨
         (300 < (strip ((splitOn2NL (clean_and_prepare_text exC2)).getD k [])).length ∧
            ∃ j < (split_text_smart
                (strip ((splitOn2NL (clean_and_prepare_text exC2)).getD k [])) 300).length,
              c = (split_text_smart
                (strip ((splitOn2NL (clean_and_prepare_text exC2)).getD k [])) 300).getD j [] ∧
              failParaMsg 1 "E".data = failChunkMsg (j+1) (k+1) e))) :=
  ⟨⟨by decide, by decide⟩,
   (claim_C2 engFail exC2 (.error (failParaMsg 1 "E".data)) [List.replicate 200 'a']
      (by decide) (by decide) (by decide)).2 (failParaMsg 1 "E".data) rfl⟩

/-- C5 (amended): for an input whose normalized form is two stripped,
non-blank paragraphs separated by one blank line, each within the budget but
with total normalized length over the budget, the orchestrator makes exactly
two engine calls — one per paragraph, in order — and, when both translations
are non-blank, returns the first translation, a double newline, then the
second, trimmed at the outer edges. -/
theorem claim_C5 (engine : Engine) (text p1 p2 t1 t2 : Str)
    (h0 : splitOn2NL (clean_and_prepare_text text) = [p1, p2])
    (h1 : strip p1 = p1) (h2 : p1 ≠ []) (h3 : strip p2 = p2) (h4 : p2 ≠ [])
    (h5 : p1.length ≤ 300) (h6 : p2.length ≤ 300)
    (h7 : 300 < (clean_and_prepare_text text).length)
    (h8 : engine p1 = .ok t1) (h9 : engine p2 = .ok t2)
    (h10 : strip t1 ≠ []) (h11 : strip t2 ≠ []) :
    translate_with_structure_preservation engine text =
      (.ok (strip (t1 ++ '\n' :: '\n' :: t2)), [p1, p2]) := by
  have hc : clean_and_prepare_text text = p1 ++ '\n' :: '\n' :: p2 := by
    have hj := joinWith_splitOn2NL (clean_and_prepare_text text)
    rw [h0] at hj
    rw [← hj]
    show p1 ++ ['\n', '\n'] ++ p2 = _
    simp
  have hstripc : strip (clean_and_prepare_text text) ≠ [] := by
    have hp1s : strip p1 ≠ [] := by rw [h1]; exact h2
    obtain ⟨c0, hc0, hns⟩ := exists_nonspace_of_strip_ne_nil hp1s
    have hmem : c0 ∈ clean_and_prepare_text text := by
      rw [hc]
      exact List.mem_append.mpr (Or.inl hc0)
    exact strip_ne_nil_of_mem hmem hns
  unfold translate_with_structure_preservation
  rw [if_neg hstripc, if_neg (Nat.not_le.mpr h7), h0]
  rw [translateParagraphsLoop_cons, h1, if_neg h2, if_pos h5, h8]
  show translateParagraphsLoop engine 1 [p2] [t1] [p1] = _
  rw [translateParagraphsLoop_cons, h3, if_neg h4, if_pos h6, h9]
  show translateParagraphsLoop engine 2 [] [t1, t2] [p1, p2] = _
  rw [translateParagraphsLoop_nil]
  have hfil : ([t1, t2].filter (fun para => decide (strip para ≠ []))) = [t1, t2] := by
    simp [List.filter_cons, h10, h11]
  rw [hfil]
  show (Except.ok (strip (t1 ++ ['\n', '\n'] ++ t2)), [p1, p2]) = _
  rw [List.append_assoc]
  rfl

/-- First paragraph of the C5 witness document (200 characters). -/
def exC5p1 : Str := List.replicate 200 'a'

/-- Second paragraph of the C5 witness document (150 characters). -/
def exC5p2 : Str := List.replicate 150 'b'

/-- The C5 witness document: 352 normalized characters, two paragraphs. -/
def exC5txt : Str := exC5p1 ++ "\n\n".data ++ exC5p2

/-- Witness for C5 on a two-paragraph document over the budget with the
echoing engine: exactly the calls `[p1, p2]` and the reassembled output. -/
theorem claim_C5_witness :
    (splitOn2NL (clean_and_prepare_text exC5txt) = [exC5p1, exC5p2] ∧
     300 < (clean_and_prepare_text exC5txt).length) ∧
    translate_with_structure_preservation engEcho exC5txt =
      (.ok (strip (('T' :: exC5p1) ++ '\n' :: '\n' :: ('T' :: exC5p2))), [exC5p1, exC5p2]) :=
  ⟨⟨by decide, by decide⟩,
   claim_C5 engEcho exC5txt exC5p1 exC5p2 ('T' :: exC5p1) ('T' :: exC5p2)
     (by decide) (by decide) (by decide) (by decide) (by decide) (by decide) (by decide)
     (by decide) rfl rfl (by decide) (by decide)⟩

/-- C10: on the structured path, for a document normalizing to one long
paragraph whose chunks all succeed, the returned text is the single-space
join of exactly the NON-EMPTY chunk translations in dispatch order — an
empty translation is silently omitted before joining (`if translation:` at
source line 246) — and the dispatched calls are exactly the chunks. -/
theorem claim_C10 (engine : Engine) (text : Str) (tr : Str → Str)
    (h0 : splitOn2NL (clean_and_prepare_text text) = [clean_and_prepare_text text])
    (h1 : strip (clean_and_prepare_text text) = clean_and_prepare_text text)
    (h2 : 300 < (clean_and_prepare_text text).length)
    (h3 : ∀ ch ∈ split_text_smart (clean_and_prepare_text text) 300,
      engine ch = .ok (tr ch)) :
    translate_with_structure_preservation engine text =
      (.ok (strip (joinWith [' ']
        (((split_text_smart (clean_and_prepare_text text) 300).map tr).filter
          (fun t => decide (t ≠ []))))),
       split_text_smart (clean_and_prepare_text text) 300) := by
  have hcne2 : clean_and_prepare_text text ≠ [] := by
    intro hnil
    rw [hnil] at h2
    simp at h2
  have hcne : strip (clean_and_prepare_text text) ≠ [] := by
    rw [h1]
    exact hcne2
  unfold translate_with_structure_preservation
  rw [if_neg hcne, if_neg (Nat.not_le.mpr h2), h0]
  rw [translateParagraphsLoop_cons, h1, if_neg hcne2, if_neg (Nat.not_le.mpr h2)]
  rw [translateChunksLoop_ok engine (0+1) tr
    (split_text_smart (clean_and_prepare_text text) 300) 0 [] [] h3]
  show translateParagraphsLoop engine 2 []
    [joinWith [' ']
      (((split_text_smart (clean_and_prepare_text text) 300).map tr).filter
        (fun t => decide (t ≠ [])))]
    (split_text_smart (clean_and_prepare_text text) 300) = _
  rw [translateParagraphsLoop_nil]
  set jw := joinWith [' ']
    (((split_text_smart (clean_and_prepare_text text) 300).map tr).filter
      (fun t => decide (t ≠ []))) with hjwdef
  by_cases hjw : strip jw = []
  · have hfil : ([jw].filter (fun para => decide (strip para ≠ []))) = [] := by
      simp [List.filter_cons, hjw]
    rw [hfil, hjw]
    rfl
  · have hfil : ([jw].filter (fun para => decide (strip para ≠ []))) = [jw] := by
      simp [List.filter_cons, hjw]
    rw [hfil]
    rfl

/-- The C10 witness document: one paragraph of 302 characters with two
sentences, each 150 characters. -/
def exC10 : Str := List.replicate 150 'a' ++ ". ".data ++ List.replicate 150 'b'

/-- The C10 witness translation: chunks starting with `'a'` translate to the
empty string, all others are returned unchanged. -/
def trC10 : Str → Str := fun s => if s.headD ' ' = 'a' then [] else s

/-- The C10 witness engine: always succeeds, translating via `trC10`. -/
def engC10 : Engine := fun s => .ok (trC10 s)

/-- Witness for C10: the first chunk's translation is empty and is omitted
from the joined paragraph; the calls are exactly the two chunks. -/
theorem claim_C10_witness :
    (splitOn2NL (clean_and_prepare_text exC10) = [clean_and_prepare_text exC10] ∧
     strip (clean_and_prepare_text exC10) = clean_and_prepare_text exC10 ∧
     300 < (clean_and_prepare_text exC10).length) ∧
    translate_with_structure_preservation engC10 exC10 =
      (.ok (strip (joinWith [' ']
        (((split_text_smart (clean_and_prepare_text exC10) 300).map trC10).filter
          (fun t => decide (t ≠ []))))),
       split_text_smart (clean_and_prepare_text exC10) 300) :=
  ⟨⟨by decide, by decide, by decide⟩,
   claim_C10 engC10 exC10 trC10 (by decide) (by decide) (by decide) (fun ch _ => rfl)⟩

/-- A concrete document whose normalized form is
`150*'a' ++ "\n\n\n\n" ++ 150*'b'`: three double-newline-separated
paragraphs, the middle one empty, total length 304 (structured path). -/
def exC1 : Str := List.replicate 150 'a' ++ "\n\n\n\n".data ++ List.replicate 150 'b'

/-- C1 (code bug exhibit): on `exC1` the normalized input has three
double-newline-separated paragraphs (one empty), the engine succeeds on every
dispatched chunk, yet the returned document has only two paragraphs: the
final reassembly (source line 254) filters out blank paragraph translations,
so the empty paragraph is not reproduced as a blank line. -/
theorem claim_C1_bug :
    (splitOn2NL (clean_and_prepare_text exC1)).length = 3 ∧
    (translate_with_structure_preservation engId exC1).1 =
      .ok (List.replicate 150 'a' ++ "\n\n".data ++ List.replicate 150 'b') ∧
    (splitOn2NL (List.replicate 150 'a' ++ "\n\n".data ++ List.replicate 150 'b')).length = 2 := by
  decide

/-- The two-short-paragraph input of C5's scenario. -/
def exC5 : Str := "Hello\n\nWorld".data

/-- C5 (counterexample to the claim as stated): `"Hello\n\nWorld"` consists of
two paragraphs separated by one blank line, each far below the budget, but
`translate_with_structure_preservation` makes exactly ONE engine call (the
whole normalized text is within the 300-character budget, so the fast path
dispatches it as a single chunk), not two. -/
theorem claim_C5_cex :
    (splitOn2NL (clean_and_prepare_text exC5)).length = 2 ∧
    (∀ p ∈ splitOn2NL (clean_and_prepare_text exC5),
      strip p ≠ [] ∧ (strip p).length ≤ 300) ∧
    (translate_with_structure_preservation engId exC5).2.length = 1 := by
  decide

end Xlat
